import Mathlib

/-!  Verification of the vignette transform of demo.py.

The Python source is embedded shallowly: numpy ndarrays become `NDArr`
(a shape together with a valuation on index lists), numpy broadcasting
becomes `broadcast2` and `bcIdx`, the skimage conversions img_as_ubyte
and img_as_float become `imgAsUbyte` and `imgAsFloat`, and machine
floats are idealised as real numbers.  Each numpy expression of the
source is one definition here, and `vignette` composes them in source
order.
-/

/-- Model of a numpy ndarray: a shape together with a total valuation on
index lists.  Only the values at in-range indices are meaningful. -/
structure NDArr (α : Type) where
  shape : List ℕ
  val : List ℕ → α

/-- Total number of samples, as numpy size. -/
def NDArr.size {α : Type} (A : NDArr α) : ℕ := A.shape.prod

/-- The index list lies within the bounds of the shape. -/
def InRange : List ℕ → List ℕ → Prop
  | [], [] => True
  | d :: s, i :: idx => i < d ∧ InRange s idx
  | _, _ => False

/-- Failure modes of the numpy and skimage calls made by the transform:
tuple unpacking of a too-short shape tuple, a broadcasting mismatch in an
elementwise operation, a reduction over an empty array, and the skimage
range check on float input. -/
inductive NpError where
  | notEnoughValues
  | broadcastMismatch
  | emptyReduction
  | floatOutOfRange

/-- Numpy broadcast of a pair of aligned dimensions. -/
def broadcastDim (a b : ℕ) : Option ℕ :=
  if a = b then some a else if a = 1 then some b else if b = 1 then some a else none

/-- Numpy broadcast of two shapes given least-significant dimension first;
a missing dimension counts as extent one. -/
def broadcastRev : List ℕ → List ℕ → Option (List ℕ)
  | [], ys => some ys
  | xs, [] => some xs
  | x :: xs, y :: ys =>
    match broadcastDim x y, broadcastRev xs ys with
    | some d, some rest => some (d :: rest)
    | _, _ => none

/-- Numpy broadcast of two shapes, aligned at the trailing dimension. -/
def broadcast2 (s t : List ℕ) : Option (List ℕ) :=
  (broadcastRev s.reverse t.reverse).map List.reverse

/-- Map an index of a broadcast result to an index of an operand of shape
`s`: drop the extra leading axes and send indices along axes of extent one
to zero. -/
def bcIdx (s idx : List ℕ) : List ℕ :=
  List.zipWith (fun d i => if d = 1 then 0 else i) s (idx.drop (idx.length - s.length))

/-- numpy arange, as a rank-one float array. -/
noncomputable def arange (n : ℕ) : NDArr ℝ :=
  ⟨[n], fun idx => (idx.getD 0 0 : ℝ)⟩

/-- Elementwise subtraction of a scalar. -/
noncomputable def subS (A : NDArr ℝ) (s : ℝ) : NDArr ℝ :=
  ⟨A.shape, fun idx => A.val idx - s⟩

/-- Elementwise power. -/
noncomputable def powS (A : NDArr ℝ) (n : ℕ) : NDArr ℝ :=
  ⟨A.shape, fun idx => A.val idx ^ n⟩

/-- Elementwise negation. -/
noncomputable def negA (A : NDArr ℝ) : NDArr ℝ :=
  ⟨A.shape, fun idx => -A.val idx⟩

/-- Elementwise division by a scalar. -/
noncomputable def divS (A : NDArr ℝ) (s : ℝ) : NDArr ℝ :=
  ⟨A.shape, fun idx => A.val idx / s⟩

/-- Elementwise exponential, as numpy exp. -/
noncomputable def expA (A : NDArr ℝ) : NDArr ℝ :=
  ⟨A.shape, fun idx => Real.exp (A.val idx)⟩

/-- Appending a trailing axis of extent one, as indexing with np.newaxis
in last position. -/
noncomputable def newaxis1 (A : NDArr ℝ) : NDArr ℝ :=
  ⟨A.shape ++ [1], fun idx => A.val (idx.take A.shape.length)⟩

/-- Broadcasting elementwise addition. -/
noncomputable def addB (A B : NDArr ℝ) : Except NpError (NDArr ℝ) :=
  match broadcast2 A.shape B.shape with
  | none => .error .broadcastMismatch
  | some s => .ok ⟨s, fun idx => A.val (bcIdx A.shape idx) + B.val (bcIdx B.shape idx)⟩

/-- Broadcasting elementwise multiplication. -/
noncomputable def mulB (A B : NDArr ℝ) : Except NpError (NDArr ℝ) :=
  match broadcast2 A.shape B.shape with
  | none => .error .broadcastMismatch
  | some s => .ok ⟨s, fun idx => A.val (bcIdx A.shape idx) * B.val (bcIdx B.shape idx)⟩

open Classical in
/-- numpy rint: round to nearest integer, ties to even. -/
noncomputable def rint (x : ℝ) : ℤ :=
  if Int.fract x = 1 / 2 then (if 2 ∣ ⌊x⌋ then ⌊x⌋ else ⌊x⌋ + 1) else round x

/-- skimage conversion of one float sample to an unsigned byte: scale by
255, round with rint, clip to the representable range. -/
noncomputable def ubyteOf (x : ℝ) : ℕ := (min 255 (max 0 (rint (255 * x)))).toNat

/-- Some sample of the float array lies outside the interval accepted by
img_as_ubyte. -/
def anyOutOfRange (A : NDArr ℝ) : Prop :=
  ∃ idx, InRange A.shape idx ∧ (A.val idx < -1 ∨ 1 < A.val idx)

open Classical in
/-- skimage img_as_ubyte on a float array: reject an empty array (the
np.min reduction has no identity), reject samples outside the unit
magnitude interval, and otherwise scale, round and clip each sample. -/
noncomputable def imgAsUbyte (A : NDArr ℝ) : Except NpError (NDArr ℕ) :=
  if A.size = 0 then .error .emptyReduction
  else if anyOutOfRange A then .error .floatOutOfRange
  else .ok ⟨A.shape, fun idx => ubyteOf (A.val idx)⟩

/-- skimage img_as_float on an unsigned byte array: divide by 255. -/
noncomputable def imgAsFloat (B : NDArr ℕ) : NDArr ℝ :=
  ⟨B.shape, fun idx => (B.val idx : ℝ) / 255⟩

/-- Lines 54 to 60 of demo.py: the two coordinate vectors, the broadcast
squared distance to the image center, and the exponential falloff field. -/
noncomputable def falloff (width height : ℕ) : Except NpError (NDArr ℝ) :=
  match addB (powS (newaxis1 (subS (arange width) ((width : ℝ) / 2))) 2)
      (powS (subS (arange height) ((height : ℝ) / 2)) 2) with
  | .error e => .error e
  | .ok distanceSquared =>
    .ok (expA (divS (negA distanceSquared)
      (((width : ℝ) / 2) ^ 2 + ((height : ℝ) / 2) ^ 2)))

/-- The vignette transform of demo.py: unpack the first two extents of the
shape, build the falloff field, multiply it under a new trailing axis into
the image, and convert the result to unsigned bytes. -/
noncomputable def vignette (image : NDArr ℝ) : Except NpError (NDArr ℕ) :=
  if image.shape.length < 2 then .error .notEnoughValues
  else
    match falloff (image.shape.getD 0 0) (image.shape.getD 1 0) with
    | .error e => .error e
    | .ok f =>
      match mulB image (newaxis1 f) with
      | .error e => .error e
      | .ok result => imgAsUbyte result

/-- Applying the transform twice, reading the intermediate unsigned byte
image back to float exactly as the processing loop of demo.py does. -/
noncomputable def vignetteTwice (image : NDArr ℝ) : Except NpError (NDArr ℕ) :=
  match vignette image with
  | .error e => .error e
  | .ok once => vignette (imgAsFloat once)

/-- Modelled from the spec, section 4.1: the claimed closed form of the
falloff field value at coordinate (r, c). -/
noncomputable def specFalloff (w h r c : ℕ) : ℝ :=
  Real.exp ((-(((r : ℝ) - (w : ℝ) / 2) ^ 2 + ((c : ℝ) - (h : ℝ) / 2) ^ 2)) /
    (((w : ℝ) / 2) ^ 2 + ((h : ℝ) / 2) ^ 2))

/-- Value of the generated falloff field at one coordinate. -/
noncomputable def falloffVal (w h r c : ℕ) : ℝ :=
  match falloff w h with
  | .ok F => F.val [r, c]
  | .error _ => 0

/-- All in-range samples lie in the unit interval. -/
def Samples01 (A : NDArr ℝ) : Prop :=
  ∀ idx, InRange A.shape idx → 0 ≤ A.val idx ∧ A.val idx ≤ 1

/-- A one-pixel all-white one-channel test image. -/
noncomputable def white111 : NDArr ℝ := ⟨[1, 1, 1], fun _ => 1⟩

/-- A one-pixel all-black one-channel test image. -/
noncomputable def blackImg : NDArr ℝ := ⟨[1, 1, 1], fun _ => 0⟩

/-- An all-black two by two rank-two image. -/
noncomputable def black22 : NDArr ℝ := ⟨[2, 2], fun _ => 0⟩

/-- A mid-gray two by three rank-two image. -/
noncomputable def gray23 : NDArr ℝ := ⟨[2, 3], fun _ => 1 / 2⟩

/-- A rank-one float array holding the sample 2. -/
noncomputable def overArr : NDArr ℝ := ⟨[1], fun _ => 2⟩

/-- A rank-one float array holding a negative sample. -/
noncomputable def negArr : NDArr ℝ := ⟨[1], fun _ => -(1 / 2)⟩

/-- A dim one-pixel image whose sample value makes both applications of
the transform round away from ties. -/
noncomputable def dimImg : NDArr ℝ := ⟨[1, 1, 1], fun _ => 2 * Real.exp 1 / 255⟩

/-! Helper lemmas about indices and broadcasting. -/

lemma dimIdx_eq {d i : ℕ} (h : i < d) : (if d = 1 then 0 else i) = i := by
  by_cases hd : d = 1
  · subst hd
    have hi : i = 0 := by omega
    subst hi
    simp
  · simp [hd]

lemma inRange_triple {w h ch : ℕ} {idx : List ℕ} :
    InRange [w, h, ch] idx ↔ ∃ r c k, idx = [r, c, k] ∧ r < w ∧ c < h ∧ k < ch := by
  cases idx with
  | nil => simp [InRange]
  | cons r t =>
    cases t with
    | nil => simp [InRange]
    | cons c t2 =>
      cases t2 with
      | nil => simp [InRange]
      | cons k t3 =>
        cases t3 with
        | nil =>
          simp only [InRange, and_true]
          constructor
          · rintro ⟨h1, h2, h3⟩
            exact ⟨r, c, k, rfl, h1, h2, h3⟩
          · rintro ⟨r', c', k', heq, h1, h2, h3⟩
            injection heq with e1 heq2
            injection heq2 with e2 heq3
            injection heq3 with e3 _
            subst e1; subst e2; subst e3
            exact ⟨h1, h2, h3⟩
        | cons a t4 => simp [InRange]

lemma inRange_single {n : ℕ} {idx : List ℕ} :
    InRange [n] idx ↔ ∃ i, idx = [i] ∧ i < n := by
  cases idx with
  | nil => simp [InRange]
  | cons i t =>
    cases t with
    | nil => simp [InRange]
    | cons b t2 => simp [InRange]

lemma broadcastDim_self (a : ℕ) : broadcastDim a a = some a := by
  simp [broadcastDim]

lemma broadcastDim_one_left (b : ℕ) : broadcastDim 1 b = some b := by
  rcases eq_or_ne b 1 with h | h <;> simp [broadcastDim, h]

lemma broadcastDim_one_right (a : ℕ) : broadcastDim a 1 = some a := by
  rcases eq_or_ne a 1 with h | h <;> simp [broadcastDim, h]

lemma broadcast2_w1_h (w h : ℕ) : broadcast2 [w, 1] [h] = some [w, h] := by
  simp [broadcast2, broadcastRev, broadcastDim_one_left]

lemma broadcast2_whc (w h ch : ℕ) :
    broadcast2 [w, h, ch] [w, h, 1] = some [w, h, ch] := by
  simp [broadcast2, broadcastRev, broadcastDim_one_right, broadcastDim_self]

lemma broadcast2_2d_fail (w h : ℕ) (hwh : w ≠ h) (hw : w ≠ 1) (hh : h ≠ 1) :
    broadcast2 [w, h] [w, h, 1] = none := by
  simp [broadcast2, broadcastRev, broadcastDim_one_right, broadcastDim, hwh, hw, hh]

lemma bcIdx_triple {w h ch : ℕ} (r c k : ℕ) (hr : r < w) (hc : c < h) (hk : k < ch) :
    bcIdx [w, h, ch] [r, c, k] = [r, c, k] := by
  simp [bcIdx, dimIdx_eq hr, dimIdx_eq hc, dimIdx_eq hk]

lemma bcIdx_triple_last1 {w h : ℕ} (r c k : ℕ) (hr : r < w) (hc : c < h) :
    bcIdx [w, h, 1] [r, c, k] = [r, c, 0] := by
  simp [bcIdx, dimIdx_eq hr, dimIdx_eq hc]

lemma mulB_ok (A B : NDArr ℝ) (s : List ℕ) (hb : broadcast2 A.shape B.shape = some s) :
    mulB A B =
      Except.ok ⟨s, fun idx => A.val (bcIdx A.shape idx) * B.val (bcIdx B.shape idx)⟩ := by
  unfold mulB
  rw [hb]

lemma imgAsUbyte_ok (A : NDArr ℝ) (hsz : A.size ≠ 0) (hr : ¬ anyOutOfRange A) :
    imgAsUbyte A = Except.ok ⟨A.shape, fun idx => ubyteOf (A.val idx)⟩ := by
  unfold imgAsUbyte
  rw [if_neg hsz, if_neg hr]

lemma imgAsUbyte_err_empty (A : NDArr ℝ) (hsz : A.size = 0) :
    imgAsUbyte A = Except.error NpError.emptyReduction := by
  unfold imgAsUbyte
  rw [if_pos hsz]

lemma imgAsUbyte_err_range (A : NDArr ℝ) (hsz : A.size ≠ 0) (hr : anyOutOfRange A) :
    imgAsUbyte A = Except.error NpError.floatOutOfRange := by
  unfold imgAsUbyte
  rw [if_neg hsz, if_pos hr]

/-! Helper lemmas about rounding and the byte conversion. -/

lemma rint_bounds (x : ℝ) : x - 1 / 2 ≤ (rint x : ℝ) ∧ (rint x : ℝ) ≤ x + 1 / 2 := by
  have hfx : (⌊x⌋ : ℝ) + Int.fract x = x := Int.floor_add_fract x
  unfold rint
  split_ifs with hf hd
  · rw [hf] at hfx
    constructor <;> · push_cast; linarith
  · rw [hf] at hfx
    constructor <;> · push_cast; linarith
  · have habs := abs_sub_round x
    rw [abs_le] at habs
    constructor <;> linarith [habs.1, habs.2]

lemma rint_intCast (n : ℤ) : rint (n : ℝ) = n := by
  unfold rint
  rw [Int.fract_intCast]
  rw [if_neg (by norm_num : ¬ (0 : ℝ) = 1 / 2)]
  exact round_intCast n

lemma rint_natCast (n : ℕ) : rint (n : ℝ) = n := by
  simpa using rint_intCast (n : ℤ)

lemma rint_zero : rint 0 = 0 := by
  simpa using rint_intCast 0

lemma rint_mono {x y : ℝ} (h : x ≤ y) : rint x ≤ rint y := by
  by_contra hlt
  push_neg at hlt
  have h1 : (rint y : ℝ) + 1 ≤ (rint x : ℝ) := by
    exact_mod_cast Int.add_one_le_iff.mpr hlt
  have bx := rint_bounds x
  have hy := rint_bounds y
  have hxy : x = y := le_antisymm h (by linarith [bx.2, hy.1])
  rw [hxy] at hlt
  exact absurd hlt (lt_irrefl _)

lemma rint_eq_of_bounds (n : ℤ) (x : ℝ) (h1 : (n : ℝ) - 1 / 2 < x)
    (h2 : x < (n : ℝ) + 1 / 2) : rint x = n := by
  have hnt : Int.fract x ≠ 1 / 2 := by
    intro hf
    have hfx : (⌊x⌋ : ℝ) + Int.fract x = x := Int.floor_add_fract x
    rw [hf] at hfx
    have g1 : n - 1 < ⌊x⌋ := by
      have : (n : ℝ) - 1 < (⌊x⌋ : ℝ) := by linarith
      exact_mod_cast this
    have g2 : ⌊x⌋ < n := by
      have : (⌊x⌋ : ℝ) < (n : ℝ) := by linarith
      exact_mod_cast this
    omega
  unfold rint
  rw [if_neg hnt, round_eq]
  refine Int.floor_eq_iff.mpr ⟨?_, ?_⟩ <;> push_cast <;> linarith

lemma ubyteOf_le_255 (x : ℝ) : ubyteOf x ≤ 255 := by
  unfold ubyteOf
  calc (min 255 (max 0 (rint (255 * x)))).toNat
      ≤ (255 : ℤ).toNat := Int.toNat_le_toNat (min_le_left _ _)
    _ = 255 := rfl

lemma ubyteOf_mono {x y : ℝ} (h : x ≤ y) : ubyteOf x ≤ ubyteOf y := by
  unfold ubyteOf
  apply Int.toNat_le_toNat
  apply min_le_min le_rfl
  apply max_le_max le_rfl
  exact rint_mono (by linarith)

lemma ubyteOf_nonpos {x : ℝ} (h : x ≤ 0) : ubyteOf x = 0 := by
  unfold ubyteOf
  have h0 : (255 : ℝ) * x ≤ 0 := by nlinarith
  have h1 : rint (255 * x) ≤ 0 := by
    have := rint_mono h0
    rwa [rint_zero] at this
  rw [max_eq_left h1]
  norm_num

lemma ubyteOf_zero : ubyteOf 0 = 0 := ubyteOf_nonpos le_rfl

lemma ubyteOf_natDiv (u : ℕ) (h : u ≤ 255) : ubyteOf ((u : ℝ) / 255) = u := by
  unfold ubyteOf
  rw [show (255 : ℝ) * ((u : ℝ) / 255) = (u : ℝ) by field_simp]
  rw [rint_natCast]
  rw [max_eq_right (by positivity : (0 : ℤ) ≤ (u : ℤ))]
  rw [min_eq_right (by exact_mod_cast h : (u : ℤ) ≤ 255)]
  simp

lemma specFalloff_pos (w h r c : ℕ) : 0 < specFalloff w h r c := Real.exp_pos _

lemma specFalloff_le_one (w h r c : ℕ) : specFalloff w h r c ≤ 1 := by
  unfold specFalloff
  rw [show (1 : ℝ) = Real.exp 0 from Real.exp_zero.symm]
  apply Real.exp_le_exp.mpr
  have hnum : (0 : ℝ) ≤ ((r : ℝ) - (w : ℝ) / 2) ^ 2 + ((c : ℝ) - (h : ℝ) / 2) ^ 2 := by
    positivity
  have hden : (0 : ℝ) ≤ ((w : ℝ) / 2) ^ 2 + ((h : ℝ) / 2) ^ 2 := by positivity
  rw [neg_div]
  exact neg_nonpos.mpr (div_nonneg hnum hden)

lemma specFalloff_1100 : specFalloff 1 1 0 0 = Real.exp (-1) := by
  unfold specFalloff
  congr 1
  push_cast
  norm_num

/-! Evaluation of the falloff pipeline. -/

lemma bcIdx_w1 (w r c : ℕ) (hr : r < w) : bcIdx [w, 1] [r, c] = [r, 0] := by
  simp [bcIdx, dimIdx_eq hr]

lemma bcIdx_h1 (h r c : ℕ) (hc : c < h) : bcIdx [h] [r, c] = [c] := by
  simp [bcIdx, dimIdx_eq hc]

lemma falloff_eq (w h : ℕ) :
    ∃ F, falloff w h = Except.ok F ∧ F.shape = [w, h] ∧
      ∀ r c : ℕ, r < w → c < h → F.val [r, c] = specFalloff w h r c := by
  unfold falloff addB
  have hsX : (powS (newaxis1 (subS (arange w) ((w : ℝ) / 2))) 2).shape = [w, 1] := by
    simp [powS, newaxis1, subS, arange]
  have hsY : (powS (subS (arange h) ((h : ℝ) / 2)) 2).shape = [h] := by
    simp [powS, subS, arange]
  rw [hsX, hsY, broadcast2_w1_h]
  refine ⟨_, rfl, rfl, ?_⟩
  intro r c hr hc
  unfold specFalloff
  simp only [expA, divS, negA]
  rw [bcIdx_w1 w r c hr, bcIdx_h1 h r c hc]
  simp [powS, newaxis1, subS, arange]

lemma falloffVal_eq (w h r c : ℕ) (hr : r < w) (hc : c < h) :
    falloffVal w h r c = specFalloff w h r c := by
  obtain ⟨F, hF, _, hFv⟩ := falloff_eq w h
  unfold falloffVal
  rw [hF]
  exact hFv r c hr hc

/-! Path lemmas for the vignette pipeline. -/

lemma vignette_err_unpack (A : NDArr ℝ) (hlen : A.shape.length < 2) :
    vignette A = Except.error NpError.notEnoughValues := by
  unfold vignette
  rw [if_pos hlen]

lemma vignette_ok_of (A F : NDArr ℝ) (s : List ℕ)
    (hlen : ¬ A.shape.length < 2)
    (hF : falloff (A.shape.getD 0 0) (A.shape.getD 1 0) = Except.ok F)
    (hb : broadcast2 A.shape (newaxis1 F).shape = some s)
    (hsz : s.prod ≠ 0)
    (hno : ¬ anyOutOfRange ⟨s, fun idx =>
        A.val (bcIdx A.shape idx) * (newaxis1 F).val (bcIdx (newaxis1 F).shape idx)⟩) :
    vignette A = Except.ok ⟨s, fun idx =>
        ubyteOf (A.val (bcIdx A.shape idx) * (newaxis1 F).val (bcIdx (newaxis1 F).shape idx))⟩ := by
  unfold vignette
  rw [if_neg hlen]
  simp only [hF]
  simp only [mulB_ok A (newaxis1 F) s hb]
  rw [imgAsUbyte_ok _ (by simpa [NDArr.size] using hsz) hno]

lemma vignette_err_broadcast (A F : NDArr ℝ)
    (hlen : ¬ A.shape.length < 2)
    (hF : falloff (A.shape.getD 0 0) (A.shape.getD 1 0) = Except.ok F)
    (hb : broadcast2 A.shape (newaxis1 F).shape = none) :
    vignette A = Except.error NpError.broadcastMismatch := by
  unfold vignette
  rw [if_neg hlen]
  simp only [hF]
  unfold mulB
  rw [hb]

lemma vignette_err_empty (A F : NDArr ℝ) (s : List ℕ)
    (hlen : ¬ A.shape.length < 2)
    (hF : falloff (A.shape.getD 0 0) (A.shape.getD 1 0) = Except.ok F)
    (hb : broadcast2 A.shape (newaxis1 F).shape = some s)
    (hsz : s.prod = 0) :
    vignette A = Except.error NpError.emptyReduction := by
  unfold vignette
  rw [if_neg hlen]
  simp only [hF]
  simp only [mulB_ok A (newaxis1 F) s hb]
  exact imgAsUbyte_err_empty _ (by simpa [NDArr.size] using hsz)

lemma vignette_ok_spec (A : NDArr ℝ) (w h ch : ℕ) (hA : A.shape = [w, h, ch])
    (hw : 1 ≤ w) (hh : 1 ≤ h) (hch : 1 ≤ ch) (hS : Samples01 A) :
    ∃ B, vignette A = Except.ok B ∧ B.shape = [w, h, ch] ∧
      ∀ r c k : ℕ, r < w → c < h → k < ch →
        B.val [r, c, k] = ubyteOf (A.val [r, c, k] * specFalloff w h r c) := by
  obtain ⟨F, hF, hFs, hFv⟩ := falloff_eq w h
  have hax : (newaxis1 F).shape = [w, h, 1] := by simp [newaxis1, hFs]
  have hF' : falloff (A.shape.getD 0 0) (A.shape.getD 1 0) = Except.ok F := by
    rw [hA]; simpa using hF
  have hb : broadcast2 A.shape (newaxis1 F).shape = some [w, h, ch] := by
    rw [hA, hax]; exact broadcast2_whc w h ch
  have hvals : ∀ r c k : ℕ, r < w → c < h → k < ch →
      A.val (bcIdx A.shape [r, c, k]) * (newaxis1 F).val (bcIdx (newaxis1 F).shape [r, c, k])
        = A.val [r, c, k] * specFalloff w h r c := by
    intro r c k hr hc hk
    rw [hA, hax, bcIdx_triple r c k hr hc hk, bcIdx_triple_last1 r c k hr hc]
    have hnf : (newaxis1 F).val [r, c, 0] = F.val [r, c] := by simp [newaxis1, hFs]
    rw [hnf, hFv r c hr hc]
  have hno : ¬ anyOutOfRange ⟨[w, h, ch], fun idx =>
      A.val (bcIdx A.shape idx) * (newaxis1 F).val (bcIdx (newaxis1 F).shape idx)⟩ := by
    rintro ⟨idx, hin, hout⟩
    have hin' : InRange [w, h, ch] idx := hin
    obtain ⟨r, c, k, rfl, hr, hc, hk⟩ := inRange_triple.mp hin'
    have hout' : A.val (bcIdx A.shape [r, c, k]) *
          (newaxis1 F).val (bcIdx (newaxis1 F).shape [r, c, k]) < -1 ∨
        1 < A.val (bcIdx A.shape [r, c, k]) *
          (newaxis1 F).val (bcIdx (newaxis1 F).shape [r, c, k]) := hout
    rw [hvals r c k hr hc hk] at hout'
    have ha := hS [r, c, k] (by rw [hA]; exact inRange_triple.mpr ⟨r, c, k, rfl, hr, hc, hk⟩)
    have hf1 := specFalloff_pos w h r c
    have hf2 := specFalloff_le_one w h r c
    rcases hout' with hlt | hgt
    · nlinarith [ha.1, hf1]
    · nlinarith [ha.1, ha.2, hf1, hf2]
  have hlen : ¬ A.shape.length < 2 := by rw [hA]; simp
  have hok := vignette_ok_of A F [w, h, ch] hlen hF' hb
      (by simp [Nat.mul_eq_zero]; omega) hno
  refine ⟨_, hok, rfl, ?_⟩
  intro r c k hr hc hk
  show ubyteOf (A.val (bcIdx A.shape [r, c, k]) *
      (newaxis1 F).val (bcIdx (newaxis1 F).shape [r, c, k])) = _
  rw [hvals r c k hr hc hk]

lemma vignette_zero (A : NDArr ℝ) (hv : ∀ idx, A.val idx = 0)
    (hlen : ¬ A.shape.length < 2) (t : List ℕ)
    (hb : broadcast2 A.shape [A.shape.getD 0 0, A.shape.getD 1 0, 1] = some t)
    (ht : t.prod ≠ 0) :
    vignette A = Except.ok ⟨t, fun _ => 0⟩ := by
  obtain ⟨F, hF, hFs, -⟩ := falloff_eq (A.shape.getD 0 0) (A.shape.getD 1 0)
  have hax : (newaxis1 F).shape = [A.shape.getD 0 0, A.shape.getD 1 0, 1] := by
    simp [newaxis1, hFs]
  have hb' : broadcast2 A.shape (newaxis1 F).shape = some t := by
    rw [hax]; exact hb
  have hno : ¬ anyOutOfRange ⟨t, fun idx =>
      A.val (bcIdx A.shape idx) * (newaxis1 F).val (bcIdx (newaxis1 F).shape idx)⟩ := by
    rintro ⟨idx, -, hout⟩
    have hout' : A.val (bcIdx A.shape idx) *
          (newaxis1 F).val (bcIdx (newaxis1 F).shape idx) < -1 ∨
        1 < A.val (bcIdx A.shape idx) *
          (newaxis1 F).val (bcIdx (newaxis1 F).shape idx) := hout
    rw [hv, zero_mul] at hout'
    rcases hout' with hlt | hlt <;> norm_num at hlt
  have hok := vignette_ok_of A F t hlen hF hb' ht hno
  rw [hok]
  have hfun : (fun idx => ubyteOf (A.val (bcIdx A.shape idx) *
      (newaxis1 F).val (bcIdx (newaxis1 F).shape idx))) = (fun _ : List ℕ => (0 : ℕ)) := by
    funext idx
    rw [hv, zero_mul, ubyteOf_zero]
  rw [hfun]

lemma vignette_black : vignette blackImg = Except.ok ⟨[1, 1, 1], fun _ => 0⟩ :=
  vignette_zero blackImg (fun _ => rfl) (by simp [blackImg]) [1, 1, 1] rfl (by norm_num)

/-! Claim theorems. -/

/-- C1: for every positive width and height, the falloff field generator
returns a grid of shape (width, height) whose value at each in-range
coordinate (r, c) is exp of the negated squared distance to the point
(width/2, height/2) divided by (width/2)^2 + (height/2)^2, which is the
closed form stated by the spec (`specFalloff`). -/
theorem falloff_formula_correct (w h : ℕ) (hw : 0 < w) (hh : 0 < h) :
    ∃ F, falloff w h = Except.ok F ∧ F.shape = [w, h] ∧
      ∀ r c : ℕ, r < w → c < h → F.val [r, c] = specFalloff w h r c :=
  falloff_eq w h

/-- Witness for C1 at width 2 and height 3. -/
theorem falloff_formula_correct_witness :
    ∃ F, falloff 2 3 = Except.ok F ∧ F.shape = [2, 3] ∧
      ∀ r c : ℕ, r < 2 → c < 3 → F.val [r, c] = specFalloff 2 3 r c :=
  falloff_formula_correct 2 3 (by norm_num) (by norm_num)

/-- C2: on a three-dimensional image with samples in the unit interval,
the sample of the returned image at (r, c, k) is the unsigned byte
representation of the input sample times the falloff value at (r, c); the
scalar multiplier does not depend on the channel k. -/
theorem vignette_sample_formula (A : NDArr ℝ) (w h ch : ℕ)
    (hA : A.shape = [w, h, ch]) (hS : Samples01 A)
    (r c k : ℕ) (hr : r < w) (hc : c < h) (hk : k < ch) :
    ∃ B, vignette A = Except.ok B ∧
      B.val [r, c, k] = ubyteOf (A.val [r, c, k] * specFalloff w h r c) := by
  obtain ⟨B, hB, -, hBv⟩ := vignette_ok_spec A w h ch hA
    (by omega) (by omega) (by omega) hS
  exact ⟨B, hB, hBv r c k hr hc hk⟩

/-- Witness for C2 at a concrete one-pixel white image. -/
theorem vignette_sample_formula_witness :
    ∃ B, vignette white111 = Except.ok B ∧
      B.val [0, 0, 0] = ubyteOf (white111.val [0, 0, 0] * specFalloff 1 1 0 0) :=
  vignette_sample_formula white111 1 1 1 rfl
    (fun idx _ => by norm_num [white111]) 0 0 0
    (by norm_num) (by norm_num) (by norm_num)

/-- C10: the transform never brightens a sample: each returned byte is at
most the byte representation of the corresponding input sample. -/
theorem vignette_never_brightens (A : NDArr ℝ) (w h ch : ℕ)
    (hA : A.shape = [w, h, ch]) (hS : Samples01 A)
    (r c k : ℕ) (hr : r < w) (hc : c < h) (hk : k < ch) :
    ∃ B, vignette A = Except.ok B ∧
      B.val [r, c, k] ≤ ubyteOf (A.val [r, c, k]) := by
  obtain ⟨B, hB, -, hBv⟩ := vignette_ok_spec A w h ch hA
    (by omega) (by omega) (by omega) hS
  refine ⟨B, hB, ?_⟩
  rw [hBv r c k hr hc hk]
  apply ubyteOf_mono
  have ha := hS [r, c, k] (by rw [hA]; exact inRange_triple.mpr ⟨r, c, k, rfl, hr, hc, hk⟩)
  calc A.val [r, c, k] * specFalloff w h r c
      ≤ A.val [r, c, k] * 1 :=
        mul_le_mul_of_nonneg_left (specFalloff_le_one w h r c) ha.1
    _ = A.val [r, c, k] := mul_one _

/-- Witness for C10 at a concrete one-pixel white image. -/
theorem vignette_never_brightens_witness :
    ∃ B, vignette white111 = Except.ok B ∧
      B.val [0, 0, 0] ≤ ubyteOf (white111.val [0, 0, 0]) :=
  vignette_never_brightens white111 1 1 1 rfl
    (fun idx _ => by norm_num [white111]) 0 0 0
    (by norm_num) (by norm_num) (by norm_num)

/-- C3 counterexample: a two by two rank-two (grayscale) image is a valid
input according to the claim, yet the transform returns an image of shape
[2, 2, 2], not the input shape [2, 2]: broadcasting the grid of shape
(2, 2) against the falloff of shape (2, 2, 1) silently produces a rank
three result. -/
theorem vignette_2d_square_shape_not_preserved :
    ∃ B, vignette black22 = Except.ok B ∧ B.shape ≠ black22.shape := by
  have h1 : vignette black22 = Except.ok ⟨[2, 2, 2], fun _ => 0⟩ :=
    vignette_zero black22 (fun _ => rfl) (by simp [black22]) [2, 2, 2] rfl (by norm_num)
  exact ⟨_, h1, by simp [black22]⟩

/-- C3 amended: shape preservation holds for three-dimensional inputs
with positive extents and channel count and samples in the unit interval;
the output then has the input shape and unsigned byte samples. -/
theorem vignette_shape_preserved_3d (A : NDArr ℝ) (w h ch : ℕ)
    (hA : A.shape = [w, h, ch]) (hw : 1 ≤ w) (hh : 1 ≤ h) (hch : 1 ≤ ch)
    (hS : Samples01 A) :
    ∃ B, vignette A = Except.ok B ∧ B.shape = A.shape ∧
      ∀ idx, InRange B.shape idx → B.val idx ≤ 255 := by
  obtain ⟨B, hB, hBs, hBv⟩ := vignette_ok_spec A w h ch hA hw hh hch hS
  refine ⟨B, hB, by rw [hBs, hA], ?_⟩
  intro idx hin
  rw [hBs] at hin
  obtain ⟨r, c, k, rfl, hr, hc, hk⟩ := inRange_triple.mp hin
  rw [hBv r c k hr hc hk]
  exact ubyteOf_le_255 _

/-- Witness for the amended C3 at a concrete one-pixel white image. -/
theorem vignette_shape_preserved_3d_witness :
    ∃ B, vignette white111 = Except.ok B ∧ B.shape = white111.shape ∧
      ∀ idx, InRange B.shape idx → B.val idx ≤ 255 :=
  vignette_shape_preserved_3d white111 1 1 1 rfl (by norm_num) (by norm_num)
    (by norm_num) (fun idx _ => by norm_num [white111])

/-- C4 counterexample: a two by three rank-two image is valid according to
the claim (it is two-dimensional, samples in the unit interval), yet the
transform fails, with a broadcasting mismatch rather than any dedicated
shape validation error. -/
theorem vignette_fails_on_2d_rect :
    gray23.shape = [2, 3] ∧ Samples01 gray23 ∧
      vignette gray23 = Except.error NpError.broadcastMismatch := by
  refine ⟨rfl, fun idx _ => by norm_num [gray23], ?_⟩
  obtain ⟨F, hF, hFs, -⟩ := falloff_eq 2 3
  refine vignette_err_broadcast gray23 F (by simp [gray23]) hF ?_
  rw [show (newaxis1 F).shape = [2, 3, 1] from by simp [newaxis1, hFs]]
  exact broadcast2_2d_fail 2 3 (by norm_num) (by norm_num) (by norm_num)

/-- C4 amended: the code has no InvalidImageShape validation.  It fails
with a tuple unpacking error on rank below two, with an empty reduction
error inside the byte conversion when the channel count is zero, and with
a broadcasting mismatch on rank-two inputs with distinct extents both
above one; it succeeds on three-dimensional inputs with positive extents,
positive channel count, and samples in the unit interval. -/
theorem vignette_failure_behavior :
    (∀ A : NDArr ℝ, A.shape.length < 2 →
      vignette A = Except.error NpError.notEnoughValues) ∧
    (∀ (A : NDArr ℝ) (w h : ℕ), A.shape = [w, h, 0] →
      vignette A = Except.error NpError.emptyReduction) ∧
    (∀ (A : NDArr ℝ) (w h : ℕ), A.shape = [w, h] → w ≠ h → w ≠ 1 → h ≠ 1 →
      vignette A = Except.error NpError.broadcastMismatch) ∧
    (∀ (A : NDArr ℝ) (w h ch : ℕ), A.shape = [w, h, ch] →
      1 ≤ w → 1 ≤ h → 1 ≤ ch → Samples01 A → ∃ B, vignette A = Except.ok B) := by
  refine ⟨fun A h => vignette_err_unpack A h, ?_, ?_, ?_⟩
  · intro A w h hA
    obtain ⟨F, hF, hFs, -⟩ := falloff_eq w h
    have hlen : ¬ A.shape.length < 2 := by rw [hA]; simp
    have hF' : falloff (A.shape.getD 0 0) (A.shape.getD 1 0) = Except.ok F := by
      rw [hA]; simpa using hF
    refine vignette_err_empty A F [w, h, 0] hlen hF' ?_ (by simp)
    rw [hA, show (newaxis1 F).shape = [w, h, 1] from by simp [newaxis1, hFs]]
    exact broadcast2_whc w h 0
  · intro A w h hA hwh hw1 hh1
    obtain ⟨F, hF, hFs, -⟩ := falloff_eq w h
    have hlen : ¬ A.shape.length < 2 := by rw [hA]; simp
    have hF' : falloff (A.shape.getD 0 0) (A.shape.getD 1 0) = Except.ok F := by
      rw [hA]; simpa using hF
    refine vignette_err_broadcast A F hlen hF' ?_
    rw [hA, show (newaxis1 F).shape = [w, h, 1] from by simp [newaxis1, hFs]]
    exact broadcast2_2d_fail w h hwh hw1 hh1
  · intro A w h ch hA hw hh hch hS
    obtain ⟨B, hB, -, -⟩ := vignette_ok_spec A w h ch hA hw hh hch hS
    exact ⟨B, hB⟩

/-- Witness for the amended C4: the success branch at a concrete image. -/
theorem vignette_failure_behavior_witness :
    ∃ B, vignette white111 = Except.ok B :=
  vignette_failure_behavior.2.2.2 white111 1 1 1 rfl (by norm_num) (by norm_num)
    (by norm_num) (fun idx _ => by norm_num [white111])

/-- C5 counterexample: the byte conversion does not clamp samples above
one; on an array holding the sample 2 it fails with the skimage range
error instead of succeeding. -/
theorem imgAsUbyte_fails_above_one :
    imgAsUbyte overArr = Except.error NpError.floatOutOfRange := by
  apply imgAsUbyte_err_range
  · simp [NDArr.size, overArr]
  · exact ⟨[0], by simp [overArr, InRange], Or.inr (by norm_num [overArr])⟩

/-- C5 amended: on a nonempty float array with all samples of magnitude
at most one the conversion succeeds, keeps the shape, yields bytes at
most 255, and clamps nonpositive samples to zero; samples above one (or
below minus one) instead make the conversion fail. -/
theorem imgAsUbyte_clamps_in_range (A : NDArr ℝ) (hsz : A.size ≠ 0)
    (hv : ∀ idx, InRange A.shape idx → -1 ≤ A.val idx ∧ A.val idx ≤ 1) :
    ∃ B, imgAsUbyte A = Except.ok B ∧ B.shape = A.shape ∧
      ∀ idx, InRange A.shape idx →
        B.val idx ≤ 255 ∧ (A.val idx ≤ 0 → B.val idx = 0) := by
  have hno : ¬ anyOutOfRange A := by
    rintro ⟨idx, hin, hout⟩
    have hb := hv idx hin
    rcases hout with hlt | hgt <;> linarith [hb.1, hb.2]
  refine ⟨_, imgAsUbyte_ok A hsz hno, rfl, ?_⟩
  intro idx hin
  exact ⟨ubyteOf_le_255 _, fun hle => ubyteOf_nonpos hle⟩

/-- Witness for the amended C5 at an array with one negative sample. -/
theorem imgAsUbyte_clamps_in_range_witness :
    ∃ B, imgAsUbyte negArr = Except.ok B ∧ B.shape = negArr.shape ∧
      ∀ idx, InRange negArr.shape idx →
        B.val idx ≤ 255 ∧ (negArr.val idx ≤ 0 → B.val idx = 0) :=
  imgAsUbyte_clamps_in_range negArr (by simp [NDArr.size, negArr])
    (fun idx _ => by norm_num [negArr])

/-- C6 counterexample: on a one by one image the only, hence center-most,
coordinate is (0, 0), and the falloff value there is exp of minus one,
below one half, not one. -/
theorem falloff_center_not_one_1x1 :
    falloffVal 1 1 0 0 ≠ 1 ∧ falloffVal 1 1 0 0 < 1 / 2 := by
  have hv : falloffVal 1 1 0 0 = Real.exp (-1) := by
    rw [falloffVal_eq 1 1 0 0 (by norm_num) (by norm_num), specFalloff_1100]
  have he : (2 : ℝ) < Real.exp 1 := by
    have := Real.exp_one_gt_d9
    linarith
  have hlt : Real.exp (-1) < 1 / 2 := by
    rw [Real.exp_neg, show (1 : ℝ) / 2 = 2⁻¹ by norm_num]
    exact inv_lt_inv_of_lt (by norm_num) he
  exact ⟨by rw [hv]; linarith, by rw [hv]; exact hlt⟩

/-- C6 amended: for positive extents every falloff value lies in the
half-open unit interval, the minimum over the grid is attained at the
corner (0, 0) farthest from the center, and when both extents are even
the value at the exact center coordinate equals one. -/
theorem falloff_range_center_min (w h : ℕ) (hw : 0 < w) (hh : 0 < h) :
    (∀ r c : ℕ, r < w → c < h →
      0 < falloffVal w h r c ∧ falloffVal w h r c ≤ 1) ∧
    (∀ r c : ℕ, r < w → c < h → falloffVal w h 0 0 ≤ falloffVal w h r c) ∧
    (w % 2 = 0 → h % 2 = 0 → falloffVal w h (w / 2) (h / 2) = 1) := by
  have hwr : (0 : ℝ) < (w : ℝ) := by exact_mod_cast hw
  have hhr : (0 : ℝ) < (h : ℝ) := by exact_mod_cast hh
  have hs : (0 : ℝ) < ((w : ℝ) / 2) ^ 2 + ((h : ℝ) / 2) ^ 2 := by positivity
  refine ⟨?_, ?_, ?_⟩
  · intro r c hr hc
    rw [falloffVal_eq w h r c hr hc]
    exact ⟨specFalloff_pos w h r c, specFalloff_le_one w h r c⟩
  · intro r c hr hc
    rw [falloffVal_eq w h 0 0 hw hh, falloffVal_eq w h r c hr hc]
    unfold specFalloff
    apply Real.exp_le_exp.mpr
    rw [div_le_div_right hs, neg_le_neg_iff]
    push_cast
    have hb1 : ((r : ℝ) - (w : ℝ) / 2) ^ 2 ≤ ((w : ℝ) / 2) ^ 2 := by
      apply sq_le_sq'
      · have : (0 : ℝ) ≤ (r : ℝ) := Nat.cast_nonneg r
        linarith
      · have : (r : ℝ) ≤ (w : ℝ) := by exact_mod_cast hr.le
        linarith
    have hb2 : ((c : ℝ) - (h : ℝ) / 2) ^ 2 ≤ ((h : ℝ) / 2) ^ 2 := by
      apply sq_le_sq'
      · have : (0 : ℝ) ≤ (c : ℝ) := Nat.cast_nonneg c
        linarith
      · have : (c : ℝ) ≤ (h : ℝ) := by exact_mod_cast hc.le
        linarith
    have e1 : ((0 : ℝ) - (w : ℝ) / 2) ^ 2 = ((w : ℝ) / 2) ^ 2 := by ring
    have e2 : ((0 : ℝ) - (h : ℝ) / 2) ^ 2 = ((h : ℝ) / 2) ^ 2 := by ring
    rw [e1, e2]
    exact add_le_add hb1 hb2
  · intro hev hev2
    have hwd : ((w / 2 : ℕ) : ℝ) = (w : ℝ) / 2 := by
      have h2 : w / 2 * 2 = w := Nat.div_mul_cancel (Nat.dvd_of_mod_eq_zero hev)
      have h3 := congrArg (fun n : ℕ => (n : ℝ)) h2
      push_cast at h3
      linarith
    have hhd : ((h / 2 : ℕ) : ℝ) = (h : ℝ) / 2 := by
      have h2 : h / 2 * 2 = h := Nat.div_mul_cancel (Nat.dvd_of_mod_eq_zero hev2)
      have h3 := congrArg (fun n : ℕ => (n : ℝ)) h2
      push_cast at h3
      linarith
    rw [falloffVal_eq w h (w / 2) (h / 2) (Nat.div_lt_self hw (by norm_num))
      (Nat.div_lt_self hh (by norm_num))]
    unfold specFalloff
    rw [hwd, hhd]
    simp

/-- Witness for the amended C6 at extents 2 and 2. -/
theorem falloff_range_center_min_witness :
    (∀ r c : ℕ, r < 2 → c < 2 →
      0 < falloffVal 2 2 r c ∧ falloffVal 2 2 r c ≤ 1) ∧
    (∀ r c : ℕ, r < 2 → c < 2 → falloffVal 2 2 0 0 ≤ falloffVal 2 2 r c) ∧
    (2 % 2 = 0 → 2 % 2 = 0 → falloffVal 2 2 (2 / 2) (2 / 2) = 1) :=
  falloff_range_center_min 2 2 (by norm_num) (by norm_num)

/-- C7 counterexample: the claimed reflection through width-1-r fails: on
a four by four field the corner value at (0, 0) differs from the value at
(3, 0), because the field is centered at width/2, not at (width-1)/2. -/
theorem falloff_reflect_asymmetric_4x4 :
    falloffVal 4 4 0 0 ≠ falloffVal 4 4 3 0 := by
  rw [falloffVal_eq 4 4 0 0 (by norm_num) (by norm_num),
      falloffVal_eq 4 4 3 0 (by norm_num) (by norm_num)]
  unfold specFalloff
  intro heq
  rw [Real.exp_eq_exp] at heq
  norm_num at heq

/-- C7 amended: the falloff field is symmetric under the reflections
r to width - r and c to height - c (not width - 1 - r): the mirror of a
coordinate at offset one or more is its reflection through the float
center width/2. -/
theorem falloff_reflect_symmetry_shifted (w h r c : ℕ)
    (hr1 : 1 ≤ r) (hr : r < w) (hc : c < h) :
    falloffVal w h r c = falloffVal w h (w - r) c ∧
    (1 ≤ c → falloffVal w h r c = falloffVal w h r (h - c)) := by
  constructor
  · have hwr : w - r < w := by omega
    rw [falloffVal_eq w h r c hr hc, falloffVal_eq w h (w - r) c hwr hc]
    unfold specFalloff
    congr 1
    rw [Nat.cast_sub hr.le]
    ring
  · intro hc1
    have hhc : h - c < h := by omega
    rw [falloffVal_eq w h r c hr hc, falloffVal_eq w h r (h - c) hr hhc]
    unfold specFalloff
    congr 1
    rw [Nat.cast_sub hc.le]
    ring

/-- Witness for the amended C7 at extents 2 and 2 and coordinate (1, 1). -/
theorem falloff_reflect_symmetry_shifted_witness :
    falloffVal 2 2 1 1 = falloffVal 2 2 (2 - 1) 1 ∧
    (1 ≤ 1 → falloffVal 2 2 1 1 = falloffVal 2 2 1 (2 - 1)) :=
  falloff_reflect_symmetry_shifted 2 2 1 1 le_rfl (by norm_num) (by norm_num)

/-! Numeric byte evaluations for the double application. -/

lemma ubyteOf_dim_once : ubyteOf (2 * Real.exp 1 / 255 * Real.exp (-1)) = 2 := by
  have hne : Real.exp 1 ≠ 0 := (Real.exp_pos 1).ne'
  have harg : (255 : ℝ) * (2 * Real.exp 1 / 255 * Real.exp (-1)) = 2 := by
    rw [Real.exp_neg]
    field_simp
    ring
  unfold ubyteOf
  rw [harg, show (2 : ℝ) = ((2 : ℤ) : ℝ) by norm_num, rint_intCast]
  decide

lemma ubyteOf_dim_twice : ubyteOf ((2 : ℝ) / 255 * Real.exp (-1)) = 1 := by
  have hpos := Real.exp_pos 1
  have hgt : (2.7182818283 : ℝ) < Real.exp 1 := Real.exp_one_gt_d9
  have hlt : Real.exp 1 < 2.7182818286 := Real.exp_one_lt_d9
  have harg : (255 : ℝ) * ((2 : ℝ) / 255 * Real.exp (-1)) = 2 / Real.exp 1 := by
    rw [Real.exp_neg]
    field_simp
    ring
  unfold ubyteOf
  rw [harg]
  have h1 : ((1 : ℤ) : ℝ) - 1 / 2 < 2 / Real.exp 1 := by
    rw [show ((1 : ℤ) : ℝ) = 1 by norm_num, lt_div_iff hpos]
    linarith
  have h2 : 2 / Real.exp 1 < ((1 : ℤ) : ℝ) + 1 / 2 := by
    rw [show ((1 : ℤ) : ℝ) = 1 by norm_num, div_lt_iff hpos]
    linarith
  rw [rint_eq_of_bounds 1 _ h1 h2]
  decide

/-- C8 counterexample: on the all-black image, applying the transform
twice returns exactly the once-applied result, so the twice-applied
result is neither strictly darker than nor different from the
once-applied one on every valid input. -/
theorem vignette_twice_equals_once_on_black :
    vignetteTwice blackImg = vignette blackImg ∧ Samples01 blackImg := by
  constructor
  · have h2 : vignette (imgAsFloat (⟨[1, 1, 1], fun _ => 0⟩ : NDArr ℕ)) =
        Except.ok ⟨[1, 1, 1], fun _ => 0⟩ :=
      vignette_zero _ (fun idx => by simp [imgAsFloat])
        (by simp [imgAsFloat]) [1, 1, 1] rfl (by norm_num)
    unfold vignetteTwice
    simp only [vignette_black]
    rw [h2]
  · intro idx _
    norm_num [blackImg]

/-- C8 amended: the transform is not idempotent, but only weakly so: a
second application never brightens any sample, and on some valid inputs
(the concrete dim one-pixel image) the second application is strictly
darker, hence differs; on all-black inputs the two applications agree. -/
theorem vignette_twice_le_once :
    (∀ (A : NDArr ℝ) (w h ch : ℕ), A.shape = [w, h, ch] →
      1 ≤ w → 1 ≤ h → 1 ≤ ch → Samples01 A →
      ∃ B C, vignette A = Except.ok B ∧ vignetteTwice A = Except.ok C ∧
        ∀ r c k : ℕ, r < w → c < h → k < ch →
          C.val [r, c, k] ≤ B.val [r, c, k]) ∧
    (∃ B C, vignette dimImg = Except.ok B ∧ vignetteTwice dimImg = Except.ok C ∧
      C.val [0, 0, 0] < B.val [0, 0, 0]) := by
  constructor
  · intro A w h ch hA hw hh hch hS
    obtain ⟨B, hB, hBs, hBv⟩ := vignette_ok_spec A w h ch hA hw hh hch hS
    have hfs : (imgAsFloat B).shape = [w, h, ch] := by simp [imgAsFloat, hBs]
    have hble : ∀ r c k : ℕ, r < w → c < h → k < ch → B.val [r, c, k] ≤ 255 := by
      intro r c k hr hc hk
      rw [hBv r c k hr hc hk]
      exact ubyteOf_le_255 _
    have hfS : Samples01 (imgAsFloat B) := by
      intro idx hin
      rw [hfs] at hin
      obtain ⟨r, c, k, rfl, hr, hc, hk⟩ := inRange_triple.mp hin
      have hval : (imgAsFloat B).val [r, c, k] = (B.val [r, c, k] : ℝ) / 255 := rfl
      rw [hval]
      refine ⟨by positivity, ?_⟩
      rw [div_le_one (by norm_num)]
      exact_mod_cast hble r c k hr hc hk
    obtain ⟨C, hC, hCs, hCv⟩ :=
      vignette_ok_spec (imgAsFloat B) w h ch hfs hw hh hch hfS
    have htw : vignetteTwice A = Except.ok C := by
      unfold vignetteTwice
      simp only [hB]
      exact hC
    refine ⟨B, C, hB, htw, ?_⟩
    intro r c k hr hc hk
    rw [hCv r c k hr hc hk]
    have hval : (imgAsFloat B).val [r, c, k] = (B.val [r, c, k] : ℝ) / 255 := rfl
    rw [hval]
    calc ubyteOf ((B.val [r, c, k] : ℝ) / 255 * specFalloff w h r c)
        ≤ ubyteOf ((B.val [r, c, k] : ℝ) / 255) := by
          apply ubyteOf_mono
          calc (B.val [r, c, k] : ℝ) / 255 * specFalloff w h r c
              ≤ (B.val [r, c, k] : ℝ) / 255 * 1 :=
                mul_le_mul_of_nonneg_left (specFalloff_le_one w h r c) (by positivity)
            _ = (B.val [r, c, k] : ℝ) / 255 := mul_one _
      _ = B.val [r, c, k] := ubyteOf_natDiv _ (hble r c k hr hc hk)
  · have hS : Samples01 dimImg := by
      intro idx hin
      have hval : dimImg.val idx = 2 * Real.exp 1 / 255 := rfl
      rw [hval]
      refine ⟨by positivity, ?_⟩
      rw [div_le_one (by norm_num)]
      linarith [Real.exp_one_lt_d9]
    obtain ⟨B, hB, hBs, hBv⟩ :=
      vignette_ok_spec dimImg 1 1 1 rfl le_rfl le_rfl le_rfl hS
    have hBval : B.val [0, 0, 0] = 2 := by
      rw [hBv 0 0 0 (by norm_num) (by norm_num) (by norm_num)]
      rw [show dimImg.val [0, 0, 0] = 2 * Real.exp 1 / 255 from rfl, specFalloff_1100]
      exact ubyteOf_dim_once
    have hfs : (imgAsFloat B).shape = [1, 1, 1] := by simp [imgAsFloat, hBs]
    have hfS : Samples01 (imgAsFloat B) := by
      intro idx hin
      rw [hfs] at hin
      obtain ⟨r, c, k, rfl, hr, hc, hk⟩ := inRange_triple.mp hin
      obtain rfl : r = 0 := by omega
      obtain rfl : c = 0 := by omega
      obtain rfl : k = 0 := by omega
      have hval : (imgAsFloat B).val [0, 0, 0] = (B.val [0, 0, 0] : ℝ) / 255 := rfl
      rw [hval, hBval]
      norm_num
    obtain ⟨C, hC, hCs, hCv⟩ :=
      vignette_ok_spec (imgAsFloat B) 1 1 1 hfs le_rfl le_rfl le_rfl hfS
    have htw : vignetteTwice dimImg = Except.ok C := by
      unfold vignetteTwice
      simp only [hB]
      exact hC
    refine ⟨B, C, hB, htw, ?_⟩
    have hCval : C.val [0, 0, 0] = 1 := by
      rw [hCv 0 0 0 (by norm_num) (by norm_num) (by norm_num)]
      have hval : (imgAsFloat B).val [0, 0, 0] = (B.val [0, 0, 0] : ℝ) / 255 := rfl
      rw [hval, hBval, specFalloff_1100]
      rw [show ((2 : ℕ) : ℝ) = (2 : ℝ) by norm_num]
      exact ubyteOf_dim_twice
    rw [hBval, hCval]
    norm_num

/-- Witness for the amended C8: the universal part applied at a concrete
one-pixel white image. -/
theorem vignette_twice_le_once_witness :
    ∃ B C, vignette white111 = Except.ok B ∧ vignetteTwice white111 = Except.ok C ∧
      ∀ r c k : ℕ, r < 1 → c < 1 → k < 1 →
        C.val [r, c, k] ≤ B.val [r, c, k] :=
  vignette_twice_le_once.1 white111 1 1 1 rfl le_rfl le_rfl le_rfl
    (fun idx _ => by norm_num [white111])
